import Mathlib

/-!
Verification of the attention subsystem of `src/nanotron/models/fast/llama.py`:
rotary position encoding, the padding repacker (`pad_to_right`), the core
varlen-attention wrapper (`CoreAttention.forward`) and the causal
self-attention orchestrator (`CausalSelfAttention.forward`) with its
prefill/decode key-value cache bookkeeping.

The embedding is a shallow one over lists:
* a `(batch, seq)` tensor of abstract elements is a `List (List α)` —
  inner head/feature dimensions that no claim inspects are folded into `α`;
* a `(batch, seq, heads, head_dim)` tensor is a `T4 α`;
* machine booleans/ints are `Bool`/`Int`; fallible code returns `Except`.

External collaborators (the fused flash-attention kernels and the
`bert_padding` repacking helpers) are kept abstract as function parameters;
the only externally caused state effect a claim depends on — the in-place
key/value append performed by `flash_attn_with_kvcache` — is modelled from
the spec (see `appendAt`).
-/

/-- Integer value of a boolean, as PyTorch uses booleans in arithmetic
(`position_offsets + sequence_mask`). -/
def boolInt (b : Bool) : Int := if b then 1 else 0

/-- Number of `true` entries of a boolean row: `mask.sum(1)` for one row. -/
def countTrue (row : List Bool) : Nat := (row.filter id).length

/-- Second component of the shape of a `(batch, seq)` tensor-as-list:
`t.shape[1]`, the (uniform) row length read off the first row. -/
def shape1 (m : List (List α)) : Nat := (m.headD []).length

/-- Inclusive running sum starting from `acc`: `torch.cumsum` on a row. -/
def cumsumFrom (acc : Int) : List Int → List Int
  | [] => []
  | x :: xs => (acc + x) :: cumsumFrom (acc + x) xs

/-- Last column of a `(batch, seq)` integer matrix: `m[:, -1]`. -/
def lastColumn (m : List (List Int)) : List Int := m.map (fun row => row.getLastD 0)

/-- Bottom-right entry of a `(batch, seq)` integer matrix: `m[-1, -1]`. -/
def lastLast (m : List (List Int)) : Int := (m.getLastD []).getLastD 0

/-- Minimum entry of a flattened integer list, `t.min()` (0 on empty). -/
def listMinD : List Int → Int
  | [] => 0
  | x :: xs => xs.foldl min x

/-- Maximum entry of a flattened integer list, `t.max()` (0 on empty). -/
def listMaxD : List Int → Int
  | [] => 0
  | x :: xs => xs.foldl max x

/-!
## Padding repacker: `pad_to_right` (llama.py lines 225-250)

`pad_to_right(tensor, mask, new_tensor)` computes
* `unpad_seqlens = mask.sum(1)`,
* `right_padded_mask = arange(seqlen) < unpad_seqlens[:, None]`,
* `useful_values = tensor[mask]` (row-major boolean selection),
* `new_tensor = zeros_like(tensor)` when no destination is supplied, and
* `new_tensor[:, :seqlen][right_padded_mask] = useful_values`
  (row-major masked scatter, slots where the mask is false keep their old
  destination values, columns past `seqlen` are untouched).
-/

/-- One row of `right_padded_mask`: `arange(s) < k`. -/
def rightRunMask (k s : Nat) : List Bool := (List.range s).map (fun i => decide (i < k))

/-- Row-level boolean selection `trow[mrow]`: the valid entries in order. -/
def selectRow (mrow : List Bool) (trow : List α) : List α :=
  (mrow.zip trow).filterMap (fun p => if p.1 then some p.2 else none)

/-- Row-major boolean selection `tensor[mask]`: concatenation of each row's
valid entries, rows in order. -/
def usefulValues (tensor : List (List α)) (mask : List (List Bool)) : List α :=
  (List.zipWith selectRow mask tensor).flatten

/-- Row-level masked scatter: walk the mask and the destination row together,
consuming one source value at each `true` slot; `false` slots and the part of
the destination beyond the mask keep their old values. Returns the new row and
the unconsumed source values. -/
def scatterRow : List Bool → List α → List α → (List α × List α)
  | [], dest, vs => (dest, vs)
  | _ :: _, [], vs => ([], vs)
  | b :: ms, d :: ds, vs =>
    if b then
      match vs with
      | v :: vs' =>
        let r := scatterRow ms ds vs'
        (v :: r.1, r.2)
      | [] =>
        let r := scatterRow ms ds []
        (d :: r.1, r.2)
    else
      let r := scatterRow ms ds vs
      (d :: r.1, r.2)

/-- Batched masked scatter `dest[mask] = vs` in row-major order: the source
values are threaded through the rows. -/
def scatterRows : List (List Bool) → List (List α) → List α → List (List α)
  | [], dest, _ => dest
  | _ :: _, [], _ => []
  | m :: ms, d :: ds, vs =>
    let r := scatterRow m d vs
    r.1 :: scatterRows ms ds r.2

/-- Shallow embedding of `pad_to_right` (llama.py lines 225-250). `none` for
`new_tensor` selects the `zeros_like(tensor)` default; with `α` abstract the
zero element is `default`. -/
def pad_to_right [Inhabited α] (tensor : List (List α)) (mask : List (List Bool))
    (new_tensor : Option (List (List α))) : List (List α) × List (List Bool) :=
  let unpad_seqlens := mask.map countTrue
  let max_seqlen := shape1 mask
  let right_padded_mask := unpad_seqlens.map (fun k => rightRunMask k max_seqlen)
  let useful_values := usefulValues tensor mask
  let nt := new_tensor.getD (tensor.map (fun r => List.replicate r.length default))
  (scatterRows right_padded_mask nt useful_values, right_padded_mask)

/-- Three-list pointwise zip, used only to state row-wise postconditions. -/
def zip3With (f : α → β → γ → δ) : List α → List β → List γ → List δ
  | a :: as_, b :: bs, c :: cs => f a b c :: zip3With f as_ bs cs
  | _, _, _ => []

theorem countTrue_le (row : List Bool) : countTrue row ≤ row.length := by
  unfold countTrue
  exact List.length_filter_le _ _

theorem selectRow_length (mrow : List Bool) (trow : List α)
    (h : mrow.length = trow.length) :
    (selectRow mrow trow).length = countTrue mrow := by
  induction mrow generalizing trow with
  | nil => simp [selectRow, countTrue]
  | cons b ms ih =>
    cases trow with
    | nil => simp at h
    | cons t ts =>
      have h2 : ms.length = ts.length := by simpa using h
      cases b <;>
        simp [selectRow, countTrue, List.zip_cons_cons, List.filterMap_cons] <;>
        simpa [selectRow, countTrue] using ih ts h2

theorem rangeMap_all_true (s k : Nat) (h : s ≤ k) :
    (List.range s).map (fun i => decide (i < k)) = List.replicate s true := by
  induction s with
  | zero => simp
  | succ n ih =>
    rw [List.range_succ, List.map_append, ih (by omega)]
    have hn : n < k := by omega
    simp [hn, List.replicate_succ' n true]

theorem rightRunMask_eq (k s : Nat) (h : k ≤ s) :
    rightRunMask k s = List.replicate k true ++ List.replicate (s - k) false := by
  induction s with
  | zero =>
    have : k = 0 := by omega
    simp [rightRunMask, this]
  | succ n ih =>
    rcases Nat.lt_or_ge k (n + 1) with hk | hk
    · have hkn : k ≤ n := by omega
      rw [rightRunMask, List.range_succ, List.map_append]
      have := ih hkn
      rw [rightRunMask] at this
      rw [this]
      have hlt : ¬ (n < k) := by omega
      simp only [List.map_cons, List.map_nil, hlt, decide_False]
      have hsub : n + 1 - k = (n - k) + 1 := by omega
      rw [hsub, List.replicate_succ' (n - k) false, List.append_assoc]
    · have hk1 : k = n + 1 := by omega
      subst hk1
      rw [rightRunMask, rangeMap_all_true (n + 1) (n + 1) (le_refl _)]
      simp

theorem scatterRow_falseRun (m : Nat) (d vs : List α) :
    scatterRow (List.replicate m false) d vs = (d, vs) := by
  induction m generalizing d with
  | zero => simp [scatterRow]
  | succ n ih =>
    cases d with
    | nil => simp [scatterRow, List.replicate_succ]
    | cons x xs => simp [scatterRow, List.replicate_succ, ih]

theorem scatterRow_trueRun (chunk : List α) (ms : List Bool) (d vs : List α)
    (h : chunk.length ≤ d.length) :
    scatterRow (List.replicate chunk.length true ++ ms) d (chunk ++ vs) =
      (chunk ++ (scatterRow ms (d.drop chunk.length) vs).1,
       (scatterRow ms (d.drop chunk.length) vs).2) := by
  induction chunk generalizing d with
  | nil => simp [scatterRow]
  | cons c cs ih =>
    cases d with
    | nil => simp at h
    | cons x xs =>
      simp only [List.length_cons, List.replicate_succ, List.cons_append, scatterRow]
      have := ih xs (by simpa using Nat.le_of_succ_le_succ h)
      simp [this]

theorem scatterRow_rightRun (k s : Nat) (d chunk vs : List α)
    (hc : chunk.length = k) (hks : k ≤ s) (hkd : k ≤ d.length) :
    scatterRow (rightRunMask k s) d (chunk ++ vs) = (chunk ++ d.drop k, vs) := by
  subst hc
  rw [rightRunMask_eq _ _ hks, scatterRow_trueRun chunk _ d vs hkd,
    scatterRow_falseRun]

theorem scatterRows_spec (s : Nat) (mask : List (List Bool)) (tensor dest : List (List α))
    (hs : ∀ m ∈ mask, m.length = s)
    (htm : List.Forall₂ (fun (t : List α) (m : List Bool) => t.length = m.length) tensor mask)
    (hmd : List.Forall₂ (fun (m : List Bool) (d : List α) => m.length ≤ d.length) mask dest) :
    scatterRows (mask.map (fun m => rightRunMask (countTrue m) s)) dest (usefulValues tensor mask)
      = zip3With (fun t m d => selectRow m t ++ d.drop (countTrue m)) tensor mask dest := by
  induction mask generalizing tensor dest with
  | nil =>
    cases htm
    cases hmd
    simp [scatterRows, usefulValues, zip3With]
  | cons m ms ih =>
    cases htm with
    | cons h1 htm2 =>
      cases hmd with
      | cons h3 hmd2 =>
        rename_i t ts d ds
        have hms : m.length = s := hs m (by simp)
        have hchunk : (selectRow m t).length = countTrue m := selectRow_length m t h1.symm
        have hrow := scatterRow_rightRun (countTrue m) s d (selectRow m t)
          (usefulValues ts ms) hchunk (hms ▸ countTrue_le m)
          (le_trans (countTrue_le m) (le_of_le_of_eq (le_of_eq rfl) rfl |>.trans h3))
        simp only [usefulValues] at hrow
        simp only [usefulValues, List.zipWith_cons_cons, List.flatten_cons, List.map_cons,
          scatterRows, zip3With]
        rw [hrow]
        simp only [List.cons.injEq, true_and]
        exact ih ts ds (fun x hx => hs x (by simp [hx])) htm2 hmd2

/-- Helper: with the default destination (`zeros_like`), the untouched tail of
each row is a run of zero elements. -/
theorem zip3With_default_dest [Inhabited α] (tensor : List (List α))
    (mask : List (List Bool)) (s : Nat)
    (hs : ∀ m ∈ mask, m.length = s)
    (htm : List.Forall₂ (fun (t : List α) (m : List Bool) => t.length = m.length) tensor mask) :
    zip3With (fun t m d => selectRow m t ++ d.drop (countTrue m)) tensor mask
        (tensor.map (fun r => List.replicate r.length (default : α)))
      = List.zipWith (fun m t => selectRow m t ++ List.replicate (s - countTrue m) (default : α))
          mask tensor := by
  induction htm with
  | nil => simp [zip3With]
  | cons h1 htm2 ih =>
    rename_i t m ts ms
    have hms : m.length = s := hs m (by simp)
    simp only [List.map_cons, zip3With, List.zipWith_cons_cons, List.cons.injEq]
    constructor
    · rw [List.drop_replicate]
      rw [h1, hms]
    · exact ih (fun x hx => hs x (by simp [hx]))

/-- C5: for every `(batch, seq)` tensor and boolean mask of matching shape,
`pad_to_right` with the destination defaulted returns a tensor whose every row
is that row's valid entries in their original order followed by a run of zero
(`default`) elements, together with a mask that is a run of `true` of length
`countTrue` followed by `false` per row. In particular the first `k` entries of
each output row (`k` the row's valid count) are exactly the row's valid entries
in order (`selectRow` has length `countTrue`, by `selectRow_length`), and every
entry past index `k` is zero. -/
theorem pad_to_right_default_spec [Inhabited α] (tensor : List (List α))
    (mask : List (List Bool)) (s : Nat)
    (hs : ∀ m ∈ mask, m.length = s)
    (htm : List.Forall₂ (fun (t : List α) (m : List Bool) => t.length = m.length) tensor mask) :
    pad_to_right tensor mask none =
      (List.zipWith (fun m t => selectRow m t ++ List.replicate (s - countTrue m) (default : α))
          mask tensor,
       mask.map (fun m => rightRunMask (countTrue m) s)) := by
  have hsh : mask = [] ∨ shape1 (α := Bool) mask = s := by
    cases mask with
    | nil => exact Or.inl rfl
    | cons m ms => exact Or.inr (by simpa [shape1] using hs m (by simp))
  rcases hsh with h0 | hsh
  · subst h0
    cases htm
    simp [pad_to_right, scatterRows, usefulValues, shape1]
  · have hmd : List.Forall₂ (fun (m : List Bool) (d : List α) => m.length ≤ d.length) mask
        (tensor.map (fun r => List.replicate r.length (default : α))) := by
      clear hs hsh
      induction htm with
      | nil => exact List.Forall₂.nil
      | cons h1 htm2 ih =>
        exact List.Forall₂.cons (by simp; omega) ih
    have hmain := scatterRows_spec s mask tensor
      (tensor.map (fun r => List.replicate r.length (default : α))) hs htm hmd
    have hzip := zip3With_default_dest tensor mask s hs htm
    simp only [pad_to_right, Option.getD_none, List.map_map, Function.comp_def, hsh]
    rw [hmain, hzip]

/-- Witness for C5 at a concrete input: one row `[10, 20, 30]` with left-padded
mask `[F, T, T]`; the valid entries `20, 30` land at the front, the tail is
zero, and the returned mask is the right-aligned `[T, T, F]`. -/
theorem pad_to_right_default_spec_witness :
    pad_to_right [[(10 : Int), 20, 30]] [[false, true, true]] none =
      ([[20, 30, 0]], [[true, true, false]]) := by
  have h := pad_to_right_default_spec (α := Int) [[10, 20, 30]] [[false, true, true]] 3
    (by intro m hm; simp at hm; simp [hm])
    (List.Forall₂.cons rfl List.Forall₂.nil)
  rw [h]
  decide

/-- C10: `pad_to_right` does not need the no-mid-sequence-gap invariant: for an
arbitrary boolean mask (gaps included) and an arbitrary supplied destination
whose rows are at least as long as the mask's, every output row is exactly that
row's valid entries, in within-row order, compacted to the front of the
destination row, followed by the untouched destination tail. -/
theorem pad_to_right_arbitrary_mask [Inhabited α] (tensor dest : List (List α))
    (mask : List (List Bool)) (s : Nat)
    (hs : ∀ m ∈ mask, m.length = s)
    (htm : List.Forall₂ (fun (t : List α) (m : List Bool) => t.length = m.length) tensor mask)
    (hmd : List.Forall₂ (fun (m : List Bool) (d : List α) => m.length ≤ d.length) mask dest) :
    (pad_to_right tensor mask (some dest)).1 =
      zip3With (fun t m d => selectRow m t ++ d.drop (countTrue m)) tensor mask dest := by
  have hsh : mask = [] ∨ shape1 (α := Bool) mask = s := by
    cases mask with
    | nil => exact Or.inl rfl
    | cons m ms => exact Or.inr (by simpa [shape1] using hs m (by simp))
  rcases hsh with h0 | hsh
  · subst h0
    cases htm
    cases hmd
    simp [pad_to_right, scatterRows, usefulValues, zip3With]
  · have hmain := scatterRows_spec s mask tensor dest hs htm hmd
    simp only [pad_to_right, Option.getD_some, List.map_map, Function.comp_def, hsh]
    rw [hmain]

/-- Witness for C10 at a concrete input with a mid-sequence gap: mask
`[T, F, T]` (a gap) still compacts the valid entries `1, 3` to the front of the
longer destination row, leaving its tail `9, 9` untouched. -/
theorem pad_to_right_arbitrary_mask_witness :
    (pad_to_right [[(1 : Int), 2, 3]] [[true, false, true]]
        (some [[9, 9, 9, 9]])).1 = [[1, 3, 9, 9]] := by
  have h := pad_to_right_arbitrary_mask (α := Int) [[1, 2, 3]] [[9, 9, 9, 9]]
    [[true, false, true]] 3
    (by intro m hm; simp at hm; simp [hm])
    (List.Forall₂.cons rfl List.Forall₂.nil)
    (List.Forall₂.cons (by simp) List.Forall₂.nil)
  simpa using h

/-!
## Rotary encoder: `RotaryEmbedding` (llama.py lines 55-120)

`forward(x, position_ids)`:
* asserts `inner_dim % 2 == 0` (line 102);
* saves `dtype = x.dtype` and upcasts `bfloat16` to `float` before the complex
  view, casting back with `.type(dtype)` at the end (lines 101, 106-107, 120) —
  so the returned dtype is always the input dtype;
* views the last dimension as `inner_dim/2` complex pairs and multiplies each
  pair by the table entry for its position (lines 103-119);
* when `position_ids` is given, the only Python-level validation is the quick
  test on `position_ids[-1, -1]` (line 113); the subsequent table lookup
  `freqs_cis[position_ids]` (line 117) follows PyTorch advanced-indexing
  semantics: an index in `[-end, 0)` silently wraps to `end + index`, while an
  index outside `[-end, end)` makes the lookup itself fail (IndexError /
  device-side assert), modelled as `tableIndexError`;
* a `position_ids` whose shape does not match `(batch, seq)` of `x` makes the
  elementwise complex product fail to broadcast, modelled as
  `broadcastMismatch`; likewise `seq > end` in the `position_ids=None` path.

The numeric pair rotation is abstracted as a parameter `rot` (taking the table
row index and the pair index); the real-valued instance used by the code is
`rotatePair` below.
-/

/-- Failure modes of the rotary forward (Python: AssertionError, ValueError,
IndexError / device assert, broadcasting RuntimeError respectively). -/
inductive RotErr where
  | configError : RotErr
  | rangeError (lo hi : Int) : RotErr
  | tableIndexError : RotErr
  | broadcastMismatch : RotErr
deriving DecidableEq

/-- The two tensor dtypes this module handles. -/
inductive DType where
  | f32 : DType
  | bf16 : DType
deriving DecidableEq

/-- A `(batch, seq, heads, head_dim)` tensor as nested lists. -/
abbrev T4 (α : Type) := List (List (List (List α)))

/-- Innermost dimension `x.shape[3]`, read off the first head vector. -/
def innerDim (x : T4 α) : Nat := (((x.headD []).headD []).headD []).length

/-- View a head vector as complex pairs: `x.view(..., inner_dim // 2, 2)`. -/
def chunkPairs : List α → List (α × α)
  | a :: b :: rest => (a, b) :: chunkPairs rest
  | _ => []

/-- View complex pairs back as one real vector: `view_as_real(...).view(...)`. -/
def flattenPairs : List (α × α) → List α
  | [] => []
  | (a, b) :: rest => a :: b :: flattenPairs rest

/-- Indexed map, used for pair indices and default sequential positions. -/
def mapWithIdxFrom (f : Nat → β → γ) : Nat → List β → List γ
  | _, [] => []
  | n, b :: bs => f n b :: mapWithIdxFrom f (n + 1) bs

/-- Rotate one head vector: pair it up, rotate pair `i` by the table entry at
`(idx, i)`, flatten back. -/
def applyHeadG (rot : Nat → Nat → α × α → α × α) (idx : Nat) (v : List α) : List α :=
  flattenPairs (mapWithIdxFrom (rot idx) 0 (chunkPairs v))

/-- Whether the table lookup at raw index `p` succeeds under PyTorch indexing
(negative indices in `[-end, 0)` wrap). -/
def lookupOk (end_ : Nat) (p : Int) : Bool :=
  decide (-(end_ : Int) ≤ p) && decide (p < (end_ : Int))

/-- The table row actually read for raw index `p` (wrapping a negative `p`). -/
def wrapIdx (end_ : Nat) (p : Int) : Nat :=
  if p < 0 then ((end_ : Int) + p).toNat else p.toNat

/-- Shallow embedding of `RotaryEmbedding.forward` (llama.py lines 93-120),
generic in the numeric pair rotation `rot`. -/
def rotaryForwardG (end_ : Nat) (rot : Nat → Nat → α × α → α × α) (x : T4 α)
    (position_ids : Option (List (List Int))) (dtype : DType) :
    Except RotErr (T4 α × DType) :=
  if innerDim x % 2 ≠ 0 then .error .configError
  else
    match position_ids with
    | none =>
      if shape1 x ≤ end_ then
        .ok (x.map (fun bt => mapWithIdxFrom (fun j s => s.map (applyHeadG rot j)) 0 bt),
          dtype)
      else .error .broadcastMismatch
    | some p =>
      if lastLast p < 0 ∨ lastLast p ≥ (end_ : Int) then
        .error (.rangeError (listMinD p.flatten) (listMaxD p.flatten))
      else if p.flatten.all (lookupOk end_) then
        if p.length == x.length && (x.zip p).all (fun bp => bp.2.length == bp.1.length) then
          .ok ((x.zip p).map (fun bp =>
            (bp.1.zip bp.2).map (fun jp => jp.1.map (applyHeadG rot (wrapIdx end_ jp.2)))),
            dtype)
        else .error .broadcastMismatch
      else .error .tableIndexError

/-- Shape of a `(batch, seq, heads, head_dim)` tensor: nested lengths. -/
def shapeOf (x : T4 α) : List (List (List Nat)) :=
  x.map (fun b => b.map (fun s => s.map List.length))

theorem mapWithIdxFrom_length (f : Nat → β → γ) (n : Nat) (l : List β) :
    (mapWithIdxFrom f n l).length = l.length := by
  induction l generalizing n with
  | nil => rfl
  | cons b bs ih => simp [mapWithIdxFrom, ih]

theorem chunkPairs_length (v : List α) : (chunkPairs v).length = v.length / 2 := by
  induction v using chunkPairs.induct with
  | case1 a b rest ih => simp [chunkPairs, ih]; omega
  | case2 v h =>
    cases v with
    | nil => simp [chunkPairs]
    | cons a t =>
      cases t with
      | nil => simp [chunkPairs]
      | cons b r => exact absurd rfl (h a b r)

theorem flattenPairs_length (l : List (α × α)) : (flattenPairs l).length = 2 * l.length := by
  induction l with
  | nil => rfl
  | cons p rest ih =>
    cases p
    simp [flattenPairs, ih]
    omega

theorem applyHeadG_length (rot : Nat → Nat → α × α → α × α) (idx : Nat) (v : List α)
    (h : v.length % 2 = 0) : (applyHeadG rot idx v).length = v.length := by
  rw [applyHeadG, flattenPairs_length, mapWithIdxFrom_length, chunkPairs_length]
  omega

theorem headsMapShape (rot : Nat → Nat → α × α → α × α) (idx : Nat) (s : List (List α))
    (h : ∀ hv ∈ s, hv.length % 2 = 0) :
    (s.map (applyHeadG rot idx)).map List.length = s.map List.length := by
  rw [List.map_map]
  exact List.map_congr_left (fun hv hm => applyHeadG_length rot idx hv (h hv hm))

theorem seqIdxShape (rot : Nat → Nat → α × α → α × α) (n : Nat)
    (bt : List (List (List α)))
    (h : ∀ s ∈ bt, ∀ hv ∈ s, hv.length % 2 = 0) :
    (mapWithIdxFrom (fun j s => s.map (applyHeadG rot j)) n bt).map (fun s => s.map List.length)
      = bt.map (fun s => s.map List.length) := by
  induction bt generalizing n with
  | nil => rfl
  | cons s ss ih =>
    simp only [mapWithIdxFrom, List.map_cons]
    rw [headsMapShape rot n s (h s (by simp)),
      ih (n + 1) (fun x hx hv hm => h x (by simp [hx]) hv hm)]

theorem seqZipShape (end_ : Nat) (rot : Nat → Nat → α × α → α × α)
    (bt : List (List (List α))) (prow : List Int)
    (hl : prow.length = bt.length)
    (h : ∀ s ∈ bt, ∀ hv ∈ s, hv.length % 2 = 0) :
    ((bt.zip prow).map (fun jp => jp.1.map (applyHeadG rot (wrapIdx end_ jp.2)))).map
        (fun s => s.map List.length) = bt.map (fun s => s.map List.length) := by
  induction bt generalizing prow with
  | nil => simp
  | cons s ss ih =>
    cases prow with
    | nil => simp at hl
    | cons q qs =>
      simp only [List.zip_cons_cons, List.map_cons]
      rw [headsMapShape rot (wrapIdx end_ q) s (h s (by simp)),
        ih qs (by simpa using hl) (fun x hx hv hm => h x (by simp [hx]) hv hm)]

theorem batchZipShape (end_ : Nat) (rot : Nat → Nat → α × α → α × α)
    (x : T4 α) (p : List (List Int))
    (hl : p.length = x.length)
    (hall : ∀ bp ∈ x.zip p, bp.2.length = bp.1.length)
    (h : ∀ b ∈ x, ∀ s ∈ b, ∀ hv ∈ s, hv.length % 2 = 0) :
    shapeOf ((x.zip p).map (fun bp =>
        (bp.1.zip bp.2).map (fun jp => jp.1.map (applyHeadG rot (wrapIdx end_ jp.2)))))
      = shapeOf x := by
  induction x generalizing p with
  | nil => simp [shapeOf]
  | cons b bs ih =>
    cases p with
    | nil => simp at hl
    | cons q qs =>
      simp only [List.zip_cons_cons, List.map_cons, shapeOf]
      rw [seqZipShape end_ rot b q (hall (b, q) (by simp)) (h b (by simp))]
      have := ih qs (by simpa using hl)
        (fun bp hbp => hall bp (by simp [hbp]))
        (fun bb hbb s hs hv hm => h bb (by simp [hbb]) s hs hv hm)
      simpa [shapeOf] using this

/-- C9: the rotary forward returns a tensor of the same shape and the same
dtype as its input whenever it returns at all — the final `.type(dtype)` cast
restores the saved input dtype even though `bfloat16` inputs are upcast to
single precision internally (lines 101, 106-107, 120 of llama.py), and the
pairwise rotation preserves every nested length. -/
theorem rotary_shape_dtype_preserved (end_ : Nat) (rot : Nat → Nat → α × α → α × α)
    (x : T4 α) (pos : Option (List (List Int))) (dtype : DType) (y : T4 α) (dy : DType)
    (heven : ∀ b ∈ x, ∀ s ∈ b, ∀ hv ∈ s, hv.length % 2 = 0)
    (hok : rotaryForwardG end_ rot x pos dtype = .ok (y, dy)) :
    shapeOf y = shapeOf x ∧ dy = dtype := by
  cases pos with
  | none =>
    simp only [rotaryForwardG] at hok
    split at hok
    · simp at hok
    · split at hok
      · simp only [Except.ok.injEq, Prod.mk.injEq] at hok
        obtain ⟨hy, hd⟩ := hok
        refine ⟨?_, hd.symm⟩
        rw [← hy]
        unfold shapeOf
        rw [List.map_map]
        exact List.map_congr_left (fun bt hm =>
          seqIdxShape rot 0 bt (heven bt hm))
      · simp at hok
  | some p =>
    simp only [rotaryForwardG] at hok
    split at hok
    · simp at hok
    · split at hok
      · simp at hok
      · split at hok
        · split at hok
          · simp only [Except.ok.injEq, Prod.mk.injEq] at hok
            obtain ⟨hy, hd⟩ := hok
            rename_i hcond
            simp only [Bool.and_eq_true, beq_iff_eq, List.all_eq_true] at hcond
            refine ⟨?_, hd.symm⟩
            rw [← hy]
            exact batchZipShape end_ rot x p hcond.1
              (fun bp hbp => by simpa using hcond.2 bp hbp) heven
          · simp at hok
        · simp at hok

/-- Witness for C9: a concrete `1 × 1 × 1 × 2` bfloat16 tensor with an explicit
position matrix; the forward succeeds and shape and dtype are preserved. -/
theorem rotary_shape_dtype_preserved_witness :
    shapeOf [[[[(7 : Int), 8]]]] = shapeOf [[[[(5 : Int), 6]]]] ∧ DType.bf16 = DType.bf16 := by
  have h := rotary_shape_dtype_preserved (α := Int) 4 (fun _ _ pr => (pr.1 + 2, pr.2 + 2))
    [[[[5, 6]]]] (some [[2]]) DType.bf16 [[[[7, 8]]]] DType.bf16
    (by decide)
    (by rfl)
  exact h

/-- C2 counterexample: with `end = 4` the supplied position matrix `[[-1, 0]]`
contains `-1`, which lies outside `[0, 4)`, yet the rotary forward raises no
error at all — the quick test at line 113 inspects only the last entry (`0`),
and for the table lookup the `-1` silently wraps to row `3` under PyTorch
advanced indexing. The claim that any out-of-range entry yields a RangeError
is therefore false. -/
theorem rotary_range_check_misses_entry :
    ((-1 : Int) < 0 ∨ (-1 : Int) ≥ 4) ∧
      rotaryForwardG 4 (fun _ _ pr => pr) [[[[(1 : Int), 2]], [[3, 4]]]]
          (some [[-1, 0]]) DType.f32
        = .ok ([[[[1, 2]], [[3, 4]]]], DType.f32) := by
  exact ⟨Or.inl (by norm_num), rfl⟩

/-- C2 (amended): the rotary apply operation reports a RangeError — naming the
matrix minimum and maximum — exactly when the single checked entry
`position_ids[-1, -1]` lies outside `[0, end)`. When that last entry is in
range no RangeError is ever raised, even if other entries are out of range; an
entry that additionally escapes PyTorch's wrapping window `[-end, end)` makes
the table lookup itself fail instead (`tableIndexError`). In particular a
matrix with every entry in `[0, end)` never produces a RangeError, which is
the claim's converse direction. -/
theorem rotary_range_check_last_entry_only (end_ : Nat)
    (rot : Nat → Nat → α × α → α × α) (x : T4 α) (p : List (List Int)) (dtype : DType)
    (hinner : innerDim x % 2 = 0) :
    ((lastLast p < 0 ∨ lastLast p ≥ (end_ : Int)) →
      rotaryForwardG end_ rot x (some p) dtype
        = .error (.rangeError (listMinD p.flatten) (listMaxD p.flatten))) ∧
    ((¬ (lastLast p < 0 ∨ lastLast p ≥ (end_ : Int))) →
      ∀ lo hi, rotaryForwardG end_ rot x (some p) dtype ≠ .error (.rangeError lo hi)) ∧
    ((¬ (lastLast p < 0 ∨ lastLast p ≥ (end_ : Int))) →
      p.flatten.all (lookupOk end_) = false →
      rotaryForwardG end_ rot x (some p) dtype = .error .tableIndexError) := by
  refine ⟨?_, ?_, ?_⟩
  · intro hc
    simp only [rotaryForwardG]
    rw [if_neg (by omega), if_pos hc]
  · intro hc lo hi
    simp only [rotaryForwardG]
    rw [if_neg (by omega), if_neg hc]
    split
    · split <;> simp
    · simp
  · intro hc hl
    simp only [rotaryForwardG]
    rw [if_neg (by omega), if_neg hc, if_neg (by simp [hl])]

/-- Witness for the amended C2: with `end = 4` and last entry `9 ≥ 4` the
forward fails with a RangeError carrying the matrix min and max (both `9`). -/
theorem rotary_range_check_last_entry_only_witness :
    rotaryForwardG 4 (fun _ _ pr => pr) [[[[(1 : Int), 2]]]] (some [[9]]) DType.f32
      = .error (.rangeError 9 9) := by
  have h := rotary_range_check_last_entry_only 4 (fun _ _ pr => pr)
    [[[[(1 : Int), 2]]]] [[9]] DType.f32 (by decide)
  exact h.1 (by decide)

/-!
## Rotary numeric core (llama.py lines 82-90, 103-119)

`init_rotary_embeddings` builds `freqs = 1 / theta ** (arange(0, dim, 2) / dim)`,
`freqs_cis[p][i] = polar(1, p * freqs[i]) = (cos(p * freqs[i]), sin(p * freqs[i]))`,
a unit-magnitude complex rotation per `(position, pair)` slot; `forward`
multiplies each complex pair of the input by the table entry for its position.
-/

/-- Frequency for pair index `i`: `1 / theta ** ((2 * i) / dim)`. -/
noncomputable def freqFor (theta : ℝ) (dim i : Nat) : ℝ :=
  1 / theta ^ (((2 * i : Nat) : ℝ) / (dim : ℝ))

/-- Rotary table entry at `(p, i)`: `polar(1, p * freqFor)` viewed as real. -/
noncomputable def freqsCisEntry (theta : ℝ) (dim p i : Nat) : ℝ × ℝ :=
  (Real.cos (p * freqFor theta dim i), Real.sin (p * freqFor theta dim i))

/-- Complex multiplication on real pairs, `view_as_complex` product. -/
def complexMulPair (u v : ℝ × ℝ) : ℝ × ℝ :=
  (u.1 * v.1 - u.2 * v.2, u.1 * v.2 + u.2 * v.1)

/-- The numeric pair rotation the code instantiates the forward with. -/
noncomputable def rotatePair (theta : ℝ) (dim p i : Nat) (u : ℝ × ℝ) : ℝ × ℝ :=
  complexMulPair u (freqsCisEntry theta dim p i)

/-- Rotary application to a single `(batch, position, head)` slot's head
vector at absolute position `p`: the forward maps this over every slot. -/
noncomputable def rotaryApplyHead (theta : ℝ) (dim p : Nat) (v : List ℝ) : List ℝ :=
  applyHeadG (rotatePair theta dim) p v

/-- Squared Euclidean norm of a head vector. -/
def normSqL (v : List ℝ) : ℝ := (v.map (fun a => a ^ 2)).sum

theorem complexMulPair_normSq (u : ℝ × ℝ) (θ : ℝ) :
    (complexMulPair u (Real.cos θ, Real.sin θ)).1 ^ 2
      + (complexMulPair u (Real.cos θ, Real.sin θ)).2 ^ 2 = u.1 ^ 2 + u.2 ^ 2 := by
  have h := Real.sin_sq_add_cos_sq θ
  simp only [complexMulPair]
  nlinarith [h]

theorem normSqL_flattenPairs (l : List (ℝ × ℝ)) :
    normSqL (flattenPairs l) = (l.map (fun u => u.1 ^ 2 + u.2 ^ 2)).sum := by
  induction l with
  | nil => simp [normSqL, flattenPairs]
  | cons u rest ih =>
    cases u
    simp only [flattenPairs, normSqL, List.map_cons, List.sum_cons] at *
    rw [ih]
    ring

theorem mapIdx_rotate_normSq (theta : ℝ) (dim p : Nat) :
    ∀ (n : Nat) (l : List (ℝ × ℝ)),
    ((mapWithIdxFrom (rotatePair theta dim p) n l).map (fun u => u.1 ^ 2 + u.2 ^ 2)).sum
      = (l.map (fun u => u.1 ^ 2 + u.2 ^ 2)).sum := by
  intro n l
  induction l generalizing n with
  | nil => rfl
  | cons u rest ih =>
    simp only [mapWithIdxFrom, List.map_cons, List.sum_cons, rotatePair, freqsCisEntry]
    rw [complexMulPair_normSq u _, ih (n + 1)]

theorem flattenPairs_chunkPairs (v : List α) (h : v.length % 2 = 0) :
    flattenPairs (chunkPairs v) = v := by
  induction v using chunkPairs.induct with
  | case1 a b rest ih =>
    simp only [chunkPairs, flattenPairs]
    have h2 : rest.length % 2 = 0 := by
      simp only [List.length_cons] at h
      omega
    rw [ih h2]
  | case2 v hv =>
    cases v with
    | nil => simp [chunkPairs, flattenPairs]
    | cons a t =>
      cases t with
      | nil => simp at h
      | cons b r => exact absurd rfl (hv a b r)

/-- C7: the rotary rotation is energy preserving — for every head vector of
even length (the code asserts `inner_dim % 2 == 0`), every absolute position
and every `theta`/`dim`, the rotated vector has the same squared Euclidean
norm as the input: each complex pair is multiplied by the unit-magnitude table
entry `(cos, sin)`, and the forward applies `rotaryApplyHead` independently at
every `(batch, position, head)` slot. -/
theorem rotary_norm_preserving (theta : ℝ) (dim p : Nat) (v : List ℝ)
    (heven : v.length % 2 = 0) :
    normSqL (rotaryApplyHead theta dim p v) = normSqL v := by
  unfold rotaryApplyHead applyHeadG
  rw [normSqL_flattenPairs, mapIdx_rotate_normSq theta dim p 0 (chunkPairs v),
    ← normSqL_flattenPairs, flattenPairs_chunkPairs v heven]

/-- Witness for C7 at the concrete head vector `[1, 0]`, position `0`,
`theta = 10000`, `dim = 4`. -/
theorem rotary_norm_preserving_witness :
    normSqL (rotaryApplyHead 10000 4 0 [1, 0]) = normSqL [1, 0] :=
  rotary_norm_preserving 10000 4 0 [1, 0] (by decide)

/-!
## Core varlen attention wrapper: `CoreAttention.forward` (llama.py lines 178-222)

The forward builds `cu_seqlens_q`/`cu_seqlens_k` as a leading zero followed by
the running sum of per-row valid counts, sets
`causal = False if q_sequence_mask.shape[1] == 1 else True` (line 207, the
code comment calls this a hack for the `q_length == 1` kv-cache case), and
invokes `flash_attn_varlen_func` exactly once (single unconditional call
site, lines 208-220). The embedding records the kernel invocations as a list
of call descriptors.
-/

/-- Arguments of one `flash_attn_varlen_func` invocation. -/
structure VarlenCall where
  cu_seqlens_q : List Int
  cu_seqlens_k : List Int
  max_seqlen_q : Nat
  max_seqlen_k : Nat
  causal : Bool
deriving DecidableEq

/-- Cumulative sequence lengths: a zero followed by the running sum of the
per-row valid counts (`torch.cumsum` into `cu_seqlens[1:]`). -/
def cuSeqlens (mask : List (List Bool)) : List Int :=
  0 :: cumsumFrom 0 (mask.map (fun r => (countTrue r : Int)))

/-- Shallow embedding of `CoreAttention.forward`: the list of fused-kernel
invocations it performs, with their arguments. -/
def coreAttentionForward (q_sequence_mask kv_sequence_mask : List (List Bool)) :
    List VarlenCall :=
  [⟨cuSeqlens q_sequence_mask, cuSeqlens kv_sequence_mask,
    shape1 q_sequence_mask, shape1 kv_sequence_mask,
    if shape1 q_sequence_mask = 1 then false else true⟩]

/-- C6 counterexample: in the no-cache branch with `seq_len == 1` the single
kernel invocation has the causal flag disabled (`causal = False if
q_sequence_mask.shape[1] == 1 else True`, line 207), so it is not the case
that the kernel is always invoked with causal enabled. -/
theorem core_attention_causal_off_at_one :
    (coreAttentionForward [[true]] [[true]]).map (fun c => c.causal) = [false] ∧
      ¬ (∀ c ∈ coreAttentionForward [[true]] [[true]], c.causal = true) := by
  constructor
  · rfl
  · decide

/-- C6 (amended): in the no-cache branch the fused kernel is invoked exactly
once for any batch size and sequence length, and the causal flag of that
invocation is enabled exactly when the query sequence length differs from 1 —
for `seq_len == 1` the code deliberately disables it (semantically neutral for
a single query position, per the code comment at lines 205-207). -/
theorem core_attention_single_call_causal (qmask kvmask : List (List Bool)) :
    (coreAttentionForward qmask kvmask).length = 1 ∧
      ∀ c ∈ coreAttentionForward qmask kvmask, (c.causal = true ↔ shape1 qmask ≠ 1) := by
  refine ⟨rfl, ?_⟩
  intro c hc
  simp only [coreAttentionForward, List.mem_singleton] at hc
  subst hc
  by_cases h : shape1 qmask = 1 <;> simp [h]

/-- Witness for the amended C6 at a batch of one row of length 2: the single
call's causal flag is enabled. -/
theorem core_attention_single_call_causal_witness :
    (⟨[0, 2], [0, 2], 2, 2, true⟩ : VarlenCall).causal = true ↔
      shape1 [[true, true]] ≠ 1 :=
  (core_attention_single_call_causal [[true, true]] [[true, true]]).2
    ⟨[0, 2], [0, 2], 2, 2, true⟩ (by decide)

/-!
## Causal self-attention orchestrator: `CausalSelfAttention.forward`
(llama.py lines 337-520)

Control flow relevant to the claims:
* `store = get_local_store()`: `none` models training (no cache context),
  `some none` a cache context with no entry yet (prefill), `some (some e)` an
  existing entry (decode).
* Inference: `position_ids` is `cumsum(sequence_mask) - 1` on prefill
  (line 383) and `old_position_offsets[:, None] + sequence_mask` on decode
  (line 381, boolean addition); `position_offsets = position_ids[:, -1]`
  (line 384).
* The rotary calls (lines 387-388) run before the prefill mask assertion
  (lines 395-397): its ValueError quick test on `position_ids[-1, -1]` and the
  table-lookup indexing failure are modelled by `rotaryCheckO`; the value
  rotation itself does not affect any claim here and is not tracked by this
  component (it is verified separately above).
* Prefill: the gap assertion, `k_cache`/`v_cache` preallocated as
  `(batch, prefill_kv_len, ...)` zeros, the unpad/kernel/pad sequence folded
  into the abstract `prefillKernel`, and the `pad_to_right` writes into the
  caches.  Note `prefill_kv_len = config.max_position_embeddings` (line 333),
  the same value as the rotary table length, hence the single `maxPos`
  parameter.
* Decode: `flash_attn_with_kvcache` (line 465) is external; its documented
  cache side effect (writing the new key/value at index `cache_seqlens[row]`)
  is modelled by `appendAt`; its attention output is the abstract
  `decodeKernel`.
* `store.update` (line 480) writes `key`, `value` and `position_offsets`
  together; it is only reached when no exception was raised before.
* Both branches return the incoming `sequence_mask` unchanged (line 520).
-/

/-- Failure modes of the orchestrator forward. `rangeError` is the rotary
ValueError, `tableIndexError` the rotary table-lookup failure, `maskError` the
prefill gap AssertionError. `cacheOverflow` is the error the specification
names for writing past cache capacity; no code path constructs it. -/
inductive AttnError where
  | rangeError (lo hi : Int) : AttnError
  | tableIndexError : AttnError
  | maskError : AttnError
  | cacheOverflow : AttnError
deriving DecidableEq

/-- One per-session cache entry: the three fields the store holds. -/
structure CacheEntry (α : Type) where
  key : List (List α)
  value : List (List α)
  position_offsets : List Int
deriving DecidableEq

/-- Result of one successful forward call: output, returned mask, and the
store contents after the call (`none` in training). -/
structure AttnOutput (α : Type) where
  hidden : List (List α)
  mask : List (List Bool)
  store : Option (CacheEntry α)
deriving DecidableEq

/-- Prefill position ids: `cumsum(sequence_mask, dim=-1) - 1` (line 383). -/
def prefillPositionIds (mask : List (List Bool)) : List (List Int) :=
  mask.map (fun row => (cumsumFrom 0 (row.map boolInt)).map (fun c => c - 1))

/-- Decode position ids: `old_position_offsets[:, None] + sequence_mask`
(line 381), boolean entries adding 0 or 1. -/
def decodePositionIds (old : List Int) (mask : List (List Bool)) : List (List Int) :=
  List.zipWith (fun o row => row.map (fun b => o + boolInt b)) old mask

/-- Adjacent-pair gap test of one mask row: the assertion at lines 395-397
rejects any `true` immediately followed by `false`. -/
def rowNoGap : List Bool → Bool
  | [] => true
  | [_] => true
  | a :: b :: rest => (!(a && !b)) && rowNoGap (b :: rest)

/-- The prefill mask assertion over the whole batch. -/
def maskNoGap (mask : List (List Bool)) : Bool := mask.all rowNoGap

/-- Modelled from the spec: the in-place cache side effect of the external
`flash_attn_with_kvcache` kernel (spec section 6, cached/incremental form) —
the new key/value vector of each row is written into the cache row at index
`cache_seqlens[row]`. A cursor outside the cache row is undefined behaviour in
the external kernel (an unchecked device-side write) and is modelled as a
dropped write. -/
def appendAt [Inhabited α] (cache : List (List α)) (cursors : List Int)
    (new : List (List α)) : List (List α) :=
  zip3With (fun row cur nv =>
      if 0 ≤ cur ∧ cur.toNat < row.length then row.set cur.toNat (nv.headD default) else row)
    cache cursors new

/-- Error behaviour of the two rotary calls at lines 387-388 on the inference
position ids, exactly as in `rotaryForwardG`: the ValueError quick test on the
last entry, then the table lookup with PyTorch wrapping. -/
def rotaryCheckO (maxPos : Nat) (pos : List (List Int)) : Option AttnError :=
  if lastLast pos < 0 ∨ lastLast pos ≥ (maxPos : Int) then
    some (.rangeError (listMinD pos.flatten) (listMaxD pos.flatten))
  else if pos.flatten.all (lookupOk maxPos) then none
  else some .tableIndexError

/-- Shallow embedding of `CausalSelfAttention.forward` (llama.py lines
337-520). `maxPos` is `config.max_position_embeddings`, used both as the
rotary table length and as `prefill_kv_len` (line 333). The three kernel
parameters keep the external attention computations abstract; `query`, `key`,
`value` are the projected per-token states with head/feature dimensions folded
into `α`. -/
def causalForward [Inhabited α] (maxPos : Nat)
    (trainKernel : List (List α) → List (List α) → List (List α) → List (List Bool) → List (List α))
    (prefillKernel : List (List α) → List (List α) → List (List α) → List (List Bool) → List (List α))
    (decodeKernel : List (List α) → List (List α) → List (List α) → List Int → List (List α))
    (store : Option (Option (CacheEntry α)))
    (query key value : List (List α)) (mask : List (List Bool)) :
    Except AttnError (AttnOutput α) :=
  match store with
  | none => .ok ⟨trainKernel query key value mask, mask, none⟩
  | some entry =>
    let position_ids :=
      match entry with
      | some e => decodePositionIds e.position_offsets mask
      | none => prefillPositionIds mask
    let position_offsets := lastColumn position_ids
    match rotaryCheckO maxPos position_ids with
    | some err => .error err
    | none =>
      match entry with
      | none =>
        if maskNoGap mask then
          .ok ⟨prefillKernel query key value mask, mask,
            some ⟨(pad_to_right key mask
                (some (List.replicate query.length (List.replicate maxPos default)))).1,
              (pad_to_right value mask
                (some (List.replicate query.length (List.replicate maxPos default)))).1,
              position_offsets⟩⟩
        else .error .maskError
      | some e =>
        .ok ⟨decodeKernel query e.key e.value position_offsets, mask,
          some ⟨appendAt e.key position_offsets key, appendAt e.value position_offsets value,
            position_offsets⟩⟩

/-- C8: in every mode — training, prefill, decode — the orchestrator returns
exactly the `sequence_mask` it received (line 520 returns the untouched
parameter; no branch ever rebinds or writes to it). -/
theorem forward_mask_passthrough [Inhabited α] (maxPos : Nat)
    (tk pk : List (List α) → List (List α) → List (List α) → List (List Bool) → List (List α))
    (dk : List (List α) → List (List α) → List (List α) → List Int → List (List α))
    (store : Option (Option (CacheEntry α)))
    (query key value : List (List α)) (mask : List (List Bool)) (out : AttnOutput α)
    (h : causalForward maxPos tk pk dk store query key value mask = .ok out) :
    out.mask = mask := by
  cases store with
  | none =>
    simp only [causalForward, Except.ok.injEq] at h
    rw [← h]
  | some entry =>
    cases entry with
    | none =>
      simp only [causalForward] at h
      split at h
      · simp at h
      · split at h
        · simp only [Except.ok.injEq] at h
          rw [← h]
        · simp at h
    | some e =>
      simp only [causalForward] at h
      split at h
      · simp at h
      · simp only [Except.ok.injEq] at h
        rw [← h]

/-- Witness for C8 in training mode at a concrete input. -/
theorem forward_mask_passthrough_witness :
    (⟨[], [[true]], none⟩ : AttnOutput Int).mask = [[true]] :=
  forward_mask_passthrough 4 (fun _ _ _ _ => []) (fun _ _ _ _ => [])
    (fun _ _ _ _ => []) none [[(5 : Int)]] [[5]] [[5]] [[true]]
    ⟨[], [[true]], none⟩ rfl

theorem countTrue_cons (b : Bool) (l : List Bool) :
    countTrue (b :: l) = (if b then 1 else 0) + countTrue l := by
  cases b <;> simp [countTrue, List.filter_cons, Nat.add_comm]

theorem cumsumFrom_length (acc : Int) (l : List Int) :
    (cumsumFrom acc l).length = l.length := by
  induction l generalizing acc with
  | nil => rfl
  | cons x xs ih => simp [cumsumFrom, ih]

theorem cumsumFrom_getLastD (l : List Int) (acc d : Int) (h : l ≠ []) :
    (cumsumFrom acc l).getLastD d = acc + l.sum := by
  induction l generalizing acc d with
  | nil => exact absurd rfl h
  | cons x xs ih =>
    cases xs with
    | nil => simp [cumsumFrom]
    | cons y ys =>
      rw [cumsumFrom, List.getLastD_cons, ih (acc + x) _ (by simp)]
      simp [List.sum_cons]
      ring

theorem sum_boolInt (l : List Bool) : (l.map boolInt).sum = (countTrue l : Int) := by
  induction l with
  | nil => simp [countTrue]
  | cons b t ih =>
    rw [List.map_cons, List.sum_cons, ih, countTrue_cons]
    cases b <;> simp [boolInt]

theorem mapSub_getLastD (l : List Int) (d₁ d₂ : Int) (h : l ≠ []) :
    (l.map (fun c => c - 1)).getLastD d₁ = l.getLastD d₂ - 1 := by
  induction l generalizing d₁ d₂ with
  | nil => exact absurd rfl h
  | cons x xs ih =>
    cases xs with
    | nil => simp
    | cons y ys =>
      rw [List.map_cons, List.getLastD_cons, List.getLastD_cons]
      exact ih _ _ (by simp)

theorem prefillRow_last (row : List Bool) (h : row ≠ []) (d : Int) :
    ((cumsumFrom 0 (row.map boolInt)).map (fun c => c - 1)).getLastD d
      = (countTrue row : Int) - 1 := by
  have hmap : row.map boolInt ≠ [] := by simpa using h
  have hne : cumsumFrom 0 (row.map boolInt) ≠ [] := by
    intro hc
    have hlen := cumsumFrom_length 0 (row.map boolInt)
    rw [hc] at hlen
    exact hmap (List.length_eq_zero.mp hlen.symm)
  rw [mapSub_getLastD _ d 0 hne, cumsumFrom_getLastD _ 0 0 hmap, sum_boolInt]
  ring

theorem prefill_lastColumn (mask : List (List Bool)) (h : ∀ row ∈ mask, row ≠ []) :
    lastColumn (prefillPositionIds mask)
      = mask.map (fun row => (countTrue row : Int) - 1) := by
  unfold lastColumn prefillPositionIds
  rw [List.map_map]
  exact List.map_congr_left (fun row hm => prefillRow_last row (h row hm) 0)

theorem map_getLastD (f : β → γ) (l : List β) (d₁ : γ) (d₂ : β) (h : l ≠ []) :
    (l.map f).getLastD d₁ = f (l.getLastD d₂) := by
  induction l generalizing d₁ d₂ with
  | nil => exact absurd rfl h
  | cons x xs ih =>
    cases xs with
    | nil => simp
    | cons y ys =>
      rw [List.map_cons, List.getLastD_cons, List.getLastD_cons]
      exact ih _ _ (by simp)

theorem prefill_lastLast (mask : List (List Bool)) (hne : mask ≠ [])
    (hrow : mask.getLastD [] ≠ []) :
    lastLast (prefillPositionIds mask) = (countTrue (mask.getLastD []) : Int) - 1 := by
  unfold lastLast prefillPositionIds
  rw [map_getLastD _ mask [] [] hne]
  exact prefillRow_last _ hrow 0

theorem boolInt_nonneg (b : Bool) : 0 ≤ boolInt b := by
  cases b <;> simp [boolInt]

theorem cumsumFrom_mem_bounds (l : List Int) (acc : Int) (hpos : ∀ x ∈ l, 0 ≤ x) :
    ∀ c ∈ cumsumFrom acc l, acc ≤ c ∧ c ≤ acc + l.sum := by
  induction l generalizing acc with
  | nil => intro c hc; simp [cumsumFrom] at hc
  | cons x xs ih =>
    intro c hc
    have hx : 0 ≤ x := hpos x (by simp)
    have hxs : 0 ≤ xs.sum := List.sum_nonneg (fun y hy => hpos y (by simp [hy]))
    simp only [cumsumFrom, List.mem_cons] at hc
    rcases hc with hc | hc
    · subst hc
      constructor <;> simp [List.sum_cons] <;> omega
    · have := ih (acc + x) (fun y hy => hpos y (by simp [hy])) c hc
      simp only [List.sum_cons]
      constructor <;> omega

theorem prefill_lookup_ok (maxPos : Nat) (mask : List (List Bool))
    (h1 : 1 ≤ maxPos) (h2 : ∀ row ∈ mask, (countTrue row : Int) ≤ (maxPos : Int)) :
    (prefillPositionIds mask).flatten.all (lookupOk maxPos) = true := by
  rw [List.all_eq_true]
  intro c hc
  rw [List.mem_flatten] at hc
  obtain ⟨r, hr, hcr⟩ := hc
  unfold prefillPositionIds at hr
  rw [List.mem_map] at hr
  obtain ⟨row, hrow, hreq⟩ := hr
  rw [← hreq, List.mem_map] at hcr
  obtain ⟨c', hcm, hceq⟩ := hcr
  have hb := cumsumFrom_mem_bounds (row.map boolInt) 0
    (by
      intro x hx
      rw [List.mem_map] at hx
      obtain ⟨b, _, hbe⟩ := hx
      rw [← hbe]
      exact boolInt_nonneg b) c' hcm
  rw [sum_boolInt] at hb
  have h2r := h2 row hrow
  subst hceq
  unfold lookupOk
  simp only [Bool.and_eq_true, decide_eq_true_eq]
  omega

theorem decode_positionIds_allTrue (old : List Int) :
    decodePositionIds old (List.replicate old.length [true])
      = old.map (fun o => [o + 1]) := by
  induction old with
  | nil => rfl
  | cons o t ih =>
    have ih2 := ih
    simp only [decodePositionIds] at ih2 ⊢
    simp only [List.length_cons, List.replicate_succ, List.zipWith_cons_cons,
      List.map_cons, List.cons.injEq]
    exact ⟨by simp [boolInt], ih2⟩

theorem decode_lastColumn (old : List Int) :
    lastColumn (old.map (fun o => [o + 1])) = old.map (fun o => o + 1) := by
  unfold lastColumn
  rw [List.map_map]
  rfl

theorem decode_lastLast (old : List Int) (h : old ≠ []) :
    lastLast (old.map (fun o => [o + 1])) = old.getLastD 0 + 1 := by
  unfold lastLast
  rw [map_getLastD _ old [] 0 h]
  rfl

theorem flatten_map_singleton (old : List Int) :
    (old.map (fun o => [o + 1])).flatten = old.map (fun o => o + 1) := by
  induction old with
  | nil => rfl
  | cons o t ih => simp [ih]

/-- C4 counterexample: a decode call whose single-token mask entry is `false`
does not use position `previous + 1` and does not increment the offset: with
`old offset = [2]` the position ids are `old + mask = [[2]]` and the stored
`position_offsets` remain `[2]` (llama.py line 381 adds the boolean mask, so a
`false` contributes 0), refuting the claim that every decode call uses
`previous + 1` and increments by exactly one. -/
theorem decode_masked_token_no_increment :
    causalForward 10 (fun _ _ _ _ => []) (fun _ _ _ _ => []) (fun _ _ _ _ => [])
        (some (some ⟨[[(4 : Int), 0, 0]], [[5, 0, 0]], [2]⟩)) [[7]] [[7]] [[7]] [[false]]
      = .ok ⟨[], [[false]], some ⟨[[4, 0, 7]], [[5, 0, 7]], [2]⟩⟩ := by
  rfl

/-- C4 (amended): after a prefill call the stored `position_offsets[row]`
equals the row's valid-token count minus one, and the key cache, value cache
and offsets are stored together as one entry; on a decode call whose
single-token mask entries are `true` (the normal decode contract — a `false`
mask entry leaves that row's position and offset unchanged, see the
counterexample), the position used for each row is the previous offset plus
one, and the stored offsets are the old ones incremented by exactly one, again
stored together with both caches in the same entry. -/
theorem session_position_offsets [Inhabited α] (maxPos : Nat)
    (tk pk : List (List α) → List (List α) → List (List α) → List (List Bool) → List (List α))
    (dk : List (List α) → List (List α) → List (List α) → List Int → List (List α)) :
    (∀ (q k v : List (List α)) (mask : List (List Bool)) (out : AttnOutput α),
      (∀ row ∈ mask, row ≠ []) →
      causalForward maxPos tk pk dk (some none) q k v mask = .ok out →
      out.store = some ⟨(pad_to_right k mask
          (some (List.replicate q.length (List.replicate maxPos default)))).1,
        (pad_to_right v mask
          (some (List.replicate q.length (List.replicate maxPos default)))).1,
        mask.map (fun row => (countTrue row : Int) - 1)⟩) ∧
    (∀ (e : CacheEntry α) (q k v : List (List α)) (out : AttnOutput α),
      causalForward maxPos tk pk dk (some (some e)) q k v
          (List.replicate e.position_offsets.length [true]) = .ok out →
      decodePositionIds e.position_offsets (List.replicate e.position_offsets.length [true])
          = e.position_offsets.map (fun o => [o + 1]) ∧
      out.store = some ⟨appendAt e.key (e.position_offsets.map (fun o => o + 1)) k,
        appendAt e.value (e.position_offsets.map (fun o => o + 1)) v,
        e.position_offsets.map (fun o => o + 1)⟩) := by
  constructor
  · intro q k v mask out hrows h
    simp only [causalForward] at h
    split at h
    · simp at h
    · split at h
      · simp only [Except.ok.injEq] at h
        rw [← h]
        simp only [prefill_lastColumn mask hrows]
      · simp at h
  · intro e q k v out h
    refine ⟨decode_positionIds_allTrue e.position_offsets, ?_⟩
    simp only [causalForward, decode_positionIds_allTrue, decode_lastColumn] at h
    split at h
    · simp at h
    · simp only [Except.ok.injEq] at h
      rw [← h]

/-- Witness for the amended C4: a decode step with previous offset `0`,
capacity 2, all-true mask; the position used is `1 = 0 + 1` and the new entry
stores both caches (with the new key/value written at index 1) together with
the incremented offsets. -/
theorem session_position_offsets_witness :
    decodePositionIds [(0 : Int)]
        (List.replicate (List.length [(0 : Int)]) [true]) = [[(1 : Int)]] ∧
      (⟨[], [[true]], some ⟨[[10, 7]], [[20, 7]], [1]⟩⟩ : AttnOutput Int).store
        = some ⟨appendAt [[10, 0]] [1] [[7]], appendAt [[20, 0]] [1] [[7]], [1]⟩ := by
  have h := (session_position_offsets (α := Int) 2 (fun _ _ _ _ => [])
    (fun _ _ _ _ => []) (fun _ _ _ _ => [])).2
    ⟨[[10, 0]], [[20, 0]], [0]⟩ [[7]] [[7]] [[7]]
    ⟨[], [[true]], some ⟨[[10, 7]], [[20, 7]], [1]⟩⟩ rfl
  exact h

theorem rowNoGap_cons (x y : Bool) (t : List Bool) :
    rowNoGap (x :: y :: t) = ((!(x && !y)) && rowNoGap (y :: t)) := rfl

theorem rowNoGap_gapFalse (l₁ l₂ l₃ : List Bool) :
    rowNoGap (l₁ ++ true :: (l₂ ++ false :: l₃)) = false := by
  induction l₁ with
  | nil =>
    induction l₂ with
    | nil => simp [rowNoGap_cons]
    | cons x t ihx =>
      cases x with
      | false => simp [rowNoGap_cons]
      | true =>
        simp only [List.nil_append, List.cons_append] at ihx ⊢
        rw [rowNoGap_cons, ihx]
        simp
  | cons x l₁' ih =>
    cases hl : l₁' ++ true :: (l₂ ++ false :: l₃) with
    | nil => exact absurd hl (by simp)
    | cons y rest =>
      have ih2 := ih
      rw [hl] at ih2
      rw [List.cons_append, hl, rowNoGap_cons, ih2]
      simp

theorem rowNoGap_replicate_true (b : Nat) : rowNoGap (List.replicate b true) = true := by
  induction b with
  | zero => rfl
  | succ n ih =>
    cases n with
    | zero => rfl
    | succ m =>
      have h1 : List.replicate (m + 2) true = true :: true :: List.replicate m true := by
        simp [List.replicate_succ]
      have h2 : true :: List.replicate m true = List.replicate (m + 1) true := by
        simp [List.replicate_succ]
      rw [h1, rowNoGap_cons, h2, ih]
      rfl

theorem rowNoGap_cons_false (l : List Bool) : rowNoGap (false :: l) = rowNoGap l := by
  cases l with
  | nil => rfl
  | cons y t =>
    rw [rowNoGap_cons]
    simp

theorem rowNoGap_leftPad (a b : Nat) :
    rowNoGap (List.replicate a false ++ List.replicate b true) = true := by
  induction a with
  | zero => simpa using rowNoGap_replicate_true b
  | succ n ih =>
    rw [List.replicate_succ, List.cons_append, rowNoGap_cons_false]
    exact ih

/-- C3 counterexample: the mask `[[T,F],[F,F]]` has a mid-sequence gap in its
first row (a valid position followed by an invalid one), yet the prefill call
does not fail with the MaskError: the rotary calls at lines 387-388 run before
the mask assertion at lines 395-397, and the all-invalid last row makes
`position_ids[-1, -1] = -1`, so the forward fails with the RangeError
(ValueError) instead. -/
theorem prefill_gap_range_error_first :
    (∃ l₁ l₂ l₃, [true, false] = l₁ ++ true :: (l₂ ++ false :: l₃)) ∧
      causalForward 4 (fun _ _ _ _ => []) (fun _ _ _ _ => []) (fun _ _ _ _ => [])
          (some none) [[(5 : Int), 6], [5, 6]] [[5, 6], [5, 6]] [[5, 6], [5, 6]]
          [[true, false], [false, false]]
        = .error (.rangeError (-1) 0) := by
  exact ⟨⟨[], [], [], rfl⟩, rfl⟩

/-- C3 (amended): for a prefill call whose last mask row has at least one
valid token and whose per-row valid counts fit the table (these conditions
make the earlier rotary position checks pass; without them the all-invalid
last row of the counterexample turns the failure into a RangeError), the
forward fails with MaskError exactly on gap masks: if some row is a valid
(`true`) position followed later by an invalid (`false`) one the call fails
with MaskError, and every mask whose rows are a run of `false` followed by a
run of `true` (pure left padding, all-true included) is accepted. -/
theorem prefill_mask_gap_check [Inhabited α] (maxPos : Nat)
    (tk pk : List (List α) → List (List α) → List (List α) → List (List Bool) → List (List α))
    (dk : List (List α) → List (List α) → List (List α) → List Int → List (List α))
    (q k v : List (List α)) (mask : List (List Bool))
    (hlast1 : 1 ≤ countTrue (mask.getLastD []))
    (hlast2 : (countTrue (mask.getLastD []) : Int) ≤ (maxPos : Int))
    (hcounts : ∀ row ∈ mask, (countTrue row : Int) ≤ (maxPos : Int)) :
    ((∃ row ∈ mask, ∃ l₁ l₂ l₃, row = l₁ ++ true :: (l₂ ++ false :: l₃)) →
      causalForward maxPos tk pk dk (some none) q k v mask = .error .maskError) ∧
    ((∀ row ∈ mask, ∃ a b, row = List.replicate a false ++ List.replicate b true) →
      ∃ out, causalForward maxPos tk pk dk (some none) q k v mask = .ok out) := by
  have hmne : mask ≠ [] := by
    intro h0
    rw [h0] at hlast1
    simp [countTrue] at hlast1
  have hrowne : mask.getLastD [] ≠ [] := by
    intro h0
    rw [h0] at hlast1
    simp [countTrue] at hlast1
  have hmax1 : 1 ≤ maxPos := by omega
  have hcheck : rotaryCheckO maxPos (prefillPositionIds mask) = none := by
    unfold rotaryCheckO
    rw [prefill_lastLast mask hmne hrowne,
      if_neg (by omega), if_pos (prefill_lookup_ok maxPos mask hmax1 hcounts)]
  constructor
  · rintro ⟨row, hrow, l₁, l₂, l₃, heq⟩
    have hgap : maskNoGap mask = false := by
      apply Bool.eq_false_iff.mpr
      intro hall
      unfold maskNoGap at hall
      rw [List.all_eq_true] at hall
      have hmem := hall row hrow
      rw [heq, rowNoGap_gapFalse] at hmem
      simp at hmem
    simp only [causalForward, hcheck]
    rw [if_neg (by simp [hgap])]
  · intro hpad
    have hok : maskNoGap mask = true := by
      unfold maskNoGap
      rw [List.all_eq_true]
      intro row hrow
      obtain ⟨a, b, heq⟩ := hpad row hrow
      rw [heq]
      exact rowNoGap_leftPad a b
    refine ⟨⟨pk q k v mask, mask,
      some ⟨(pad_to_right k mask
          (some (List.replicate q.length (List.replicate maxPos default)))).1,
        (pad_to_right v mask
          (some (List.replicate q.length (List.replicate maxPos default)))).1,
        lastColumn (prefillPositionIds mask)⟩⟩, ?_⟩
    simp [causalForward, hcheck, hok]

/-- Witness for the amended C3: the pure left-padded mask `[[F,T]]` is
accepted — the prefill call succeeds. -/
theorem prefill_mask_gap_check_witness :
    ∃ out, causalForward 4 (fun _ _ _ _ => ([] : List (List Int)))
        (fun _ _ _ _ => []) (fun _ _ _ _ => []) (some none)
        [[(5 : Int), 6]] [[5, 6]] [[5, 6]] [[false, true]] = .ok out := by
  have h := (prefill_mask_gap_check (α := Int) 4 (fun _ _ _ _ => [])
    (fun _ _ _ _ => []) (fun _ _ _ _ => []) [[5, 6]] [[5, 6]] [[5, 6]] [[false, true]]
    (by decide) (by decide) (by decide)).2
  exact h (by
    intro row hrow
    simp only [List.mem_singleton] at hrow
    exact ⟨1, 1, by rw [hrow]; rfl⟩)

theorem getLastD_mem (l : List Int) (h : l ≠ []) : l.getLastD 0 ∈ l := by
  induction l with
  | nil => exact absurd rfl h
  | cons x xs ih =>
    cases xs with
    | nil => simp
    | cons y ys =>
      rw [List.getLastD_cons]
      exact List.mem_cons_of_mem x (ih (by simp))

/-- C1 counterexample: a decode call in which row 0 overflows the cache
capacity (`position_offset 3 + 1 = 4 ≥ prefill_kv_len = 4`) while the last row
does not. The call does not fail with the CacheOverflowError the claim names —
no code path constructs such an error; instead the out-of-range rotary
position makes the table lookup fail (`tableIndexError`, an IndexError /
device-side assert, not a dedicated overflow error). -/
theorem decode_overflow_no_cache_error :
    causalForward 4 (fun _ _ _ _ => []) (fun _ _ _ _ => []) (fun _ _ _ _ => [])
        (some (some ⟨[[(10 : Int), 0, 0, 0], [20, 0, 0, 0]],
          [[30, 0, 0, 0], [40, 0, 0, 0]], [3, 0]⟩))
        [[7], [8]] [[7], [8]] [[7], [8]] [[true], [true]]
      = .error .tableIndexError ∧
      (AttnError.tableIndexError ≠ AttnError.cacheOverflow) := by
  exact ⟨rfl, by decide⟩

/-- C1 (amended): the decode branch performs no capacity check and no
`CacheOverflowError` exists in the code. Overflow is caught only incidentally,
because `prefill_kv_len` equals the rotary table length
(`config.max_position_embeddings`, line 333): in a decode step with all-true
mask and non-negative offsets in which some row's cursor
`position_offset + 1` reaches the capacity, the call fails before any store
mutation (the rotary calls precede `store.update`), but with the rotary
errors — a RangeError when the overflowing cursor is the last row's, and a
table-lookup failure (IndexError / device assert) when the overflow is
confined to an earlier row. Since the failure is raised before `store.update`
(line 480), the key cache, value cache and `position_offsets` keep the values
of the last successful call under eager (CPU) execution semantics. -/
theorem decode_overflow_behavior [Inhabited α] (maxPos : Nat)
    (tk pk : List (List α) → List (List α) → List (List α) → List (List Bool) → List (List α))
    (dk : List (List α) → List (List α) → List (List α) → List Int → List (List α))
    (e : CacheEntry α) (q k v : List (List α))
    (hne : e.position_offsets ≠ [])
    (hnonneg : ∀ o ∈ e.position_offsets, 0 ≤ o)
    (hover : ∃ o ∈ e.position_offsets, (maxPos : Int) ≤ o + 1) :
    ((maxPos : Int) ≤ e.position_offsets.getLastD 0 + 1 →
      ∃ lo hi, causalForward maxPos tk pk dk (some (some e)) q k v
          (List.replicate e.position_offsets.length [true])
        = .error (.rangeError lo hi)) ∧
    (e.position_offsets.getLastD 0 + 1 < (maxPos : Int) →
      causalForward maxPos tk pk dk (some (some e)) q k v
          (List.replicate e.position_offsets.length [true])
        = .error .tableIndexError) := by
  constructor
  · intro ha
    refine ⟨listMinD ((e.position_offsets.map (fun o => [o + 1])).flatten),
      listMaxD ((e.position_offsets.map (fun o => [o + 1])).flatten), ?_⟩
    have hchk : rotaryCheckO maxPos (e.position_offsets.map (fun o => [o + 1]))
        = some (.rangeError (listMinD ((e.position_offsets.map (fun o => [o + 1])).flatten))
            (listMaxD ((e.position_offsets.map (fun o => [o + 1])).flatten))) := by
      unfold rotaryCheckO
      rw [if_pos (by rw [decode_lastLast _ hne]; exact Or.inr ha)]
    simp [causalForward, decode_positionIds_allTrue, hchk]
  · intro hb
    have hlast0 : 0 ≤ e.position_offsets.getLastD 0 := hnonneg _ (getLastD_mem _ hne)
    obtain ⟨o, ho, hov⟩ := hover
    have hallf : ((e.position_offsets.map (fun o => [o + 1])).flatten).all (lookupOk maxPos)
        = false := by
      rw [flatten_map_singleton]
      apply Bool.eq_false_iff.mpr
      intro hall
      rw [List.all_eq_true] at hall
      have hmem := hall (o + 1) (List.mem_map_of_mem _ ho)
      simp only [lookupOk, Bool.and_eq_true, decide_eq_true_eq] at hmem
      omega
    have hchk : rotaryCheckO maxPos (e.position_offsets.map (fun o => [o + 1]))
        = some .tableIndexError := by
      unfold rotaryCheckO
      rw [if_neg (by rw [decode_lastLast _ hne]; omega), if_neg (by simp [hallf])]
    simp [causalForward, decode_positionIds_allTrue, hchk]

/-- Witness for the amended C1: offsets `[3, 1]` at capacity 4 — row 0's
cursor is `4 ≥ 4` (overflow) while the last row's is `2 < 4`; the decode call
fails with the table-lookup error, not a cache-overflow error, and no store
update takes place. -/
theorem decode_overflow_behavior_witness :
    causalForward 4 (fun _ _ _ _ => ([] : List (List Int))) (fun _ _ _ _ => [])
        (fun _ _ _ _ => [])
        (some (some ⟨[[(10 : Int), 0, 0, 0], [20, 0, 0, 0]],
          [[30, 0, 0, 0], [40, 0, 0, 0]], [3, 1]⟩))
        [[7], [8]] [[7], [8]] [[7], [8]]
        (List.replicate (List.length [(3 : Int), 1]) [true])
      = .error .tableIndexError := by
  exact (decode_overflow_behavior 4 (fun _ _ _ _ => []) (fun _ _ _ _ => [])
    (fun _ _ _ _ => [])
    ⟨[[(10 : Int), 0, 0, 0], [20, 0, 0, 0]], [[30, 0, 0, 0], [40, 0, 0, 0]], [3, 1]⟩
    [[7], [8]] [[7], [8]] [[7], [8]]
    (by decide) (by decide) (by decide)).2 (by decide)
